import Mathlib

/-
Verification of the constraint-solver resolver
(src/packages/constraint-solver/resolver.js).

Shallow embedding conventions:
* JavaScript string-keyed objects are modelled as association lists
  (`SMap`), looked up by first match and updated in place.
* Version strings and their ordering are delegated to an external
  semver library in the source (out of scope per the specification,
  which only requires a total order); we model versions as natural
  numbers, `semver.lt`/`semver.lte` as `<`/`≤`, and version printing as
  `Nat.repr`.
* JavaScript exceptions are modelled with `Except String`; the
  potentially non-terminating worklist/recursion of the propagation
  code is given explicit fuel, with fuel exhaustion an error (so an
  `Except.ok` result is always a genuinely computed one).
* Numbers returned by the caller-supplied cost functions are modelled
  by `Cost` (a finite integer or the JavaScript `Infinity`).
* `DependenciesList`, `ConstraintsList` and the priority queue are
  defined in files of this repository that are not part of the given
  source; those operations are modelled from the specification text
  (Sections 3 and 4.4) and are marked `Modelled from the spec:` below.
-/

/-- Association list keyed by strings; models a plain JavaScript object
used as a dictionary. -/
abbrev SMap (α : Type) := List (String × α)

/-- Lookup: first binding of the key wins (a JS object has one binding
per key; `SMap.insert` keeps that invariant). -/
def SMap.find? {α : Type} : SMap α → String → Option α
  | [], _ => none
  | (k, v) :: m, key => if k = key then some v else SMap.find? m key

/-- Models `_.has(obj, key)`. -/
def SMap.has {α : Type} (m : SMap α) (key : String) : Bool :=
  (SMap.find? m key).isSome

/-- Models `obj[key] = v`: overwrite the existing binding, else append. -/
def SMap.insert {α : Type} : SMap α → String → α → SMap α
  | [], key, v => [(key, v)]
  | (k, w) :: m, key, v =>
    if k = key then (k, v) :: m else (k, w) :: SMap.insert m key v

/-- Helper for underscore's `_.uniq`: drop elements already seen,
keeping first occurrences. -/
def jsUniqAux {α : Type} [DecidableEq α] (seen : List α) : List α → List α
  | [] => []
  | x :: xs =>
    if x ∈ seen then jsUniqAux seen xs else x :: jsUniqAux (x :: seen) xs

/-- Models underscore's `_.uniq`: keep the first occurrence of each
element. -/
def jsUniq {α : Type} [DecidableEq α] (l : List α) : List α := jsUniqAux [] l

/-- Models underscore's `_.union(a, b)` = `_.uniq(a ++ b)`. -/
def jsUnion {α : Type} [DecidableEq α] (a b : List α) : List α := jsUniq (a ++ b)

/-- Versions; the external semver module is abstracted to a total order
(dotted version strings ordered by `semver.lt`, printed by their
numeral). -/
abbrev Version := Nat

/-- JavaScript numbers as used for costs: a finite value or `Infinity`. -/
inductive Cost where
  | fin : Int → Cost
  | inf : Cost
deriving DecidableEq

/-- JavaScript `+` on costs (`Infinity` absorbs). -/
def Cost.add : Cost → Cost → Cost
  | Cost.fin a, Cost.fin b => Cost.fin (a + b)
  | _, _ => Cost.inf

/-- JavaScript `<` on costs. -/
def Cost.ltb : Cost → Cost → Bool
  | Cost.fin a, Cost.fin b => decide (a < b)
  | Cost.fin _, Cost.inf => true
  | Cost.inf, _ => false

/-- A parsed constraint `(name, exact?, version)`
(`ConstraintSolver.Constraint`; the string parsing itself is delegated
to `PackageVersion` and out of scope). -/
structure Constraint where
  name : String
  exact : Bool
  version : Version
deriving DecidableEq

/-- `Constraint.prototype.toString`:
`name + "@" + (exact ? "=" : "") + version`. -/
def Constraint.toString (c : Constraint) : String :=
  c.name ++ "@" ++ (if c.exact then "=" else "") ++ Nat.repr c.version

/-- Modelled from the spec: `DependenciesList` is an ordered collection
of unique package names. -/
abbrev DependenciesList := List String

/-- Modelled from the spec: `ConstraintsList` is a set of constraints
(identity-keyed; identity equality coincides with structural equality
here because constraints are interned records). -/
abbrev ConstraintsList := List Constraint

/-- `ConstraintSolver.UnitVersion`: one concrete release. -/
structure UnitVersion where
  name : String
  version : Version
  ecv : Version
  dependencies : DependenciesList
  constraints : ConstraintsList
deriving DecidableEq

/-- `UnitVersion.prototype.toString`: `name + "@" + version`. -/
def UnitVersion.str (uv : UnitVersion) : String :=
  uv.name ++ "@" ++ Nat.repr uv.version

/-- Modelled from the spec: `DependenciesList.peek` returns the
deterministic first element (head under insertion order). -/
def DependenciesList.peek (d : DependenciesList) : String := d.headD ""

/-- Modelled from the spec: `DependenciesList.remove(name)`. -/
def DependenciesList.remove (d : DependenciesList) (n : String) : DependenciesList :=
  d.filter (fun m => decide (m ≠ n))

/-- Modelled from the spec: `DependenciesList.union` preserves left-side
order then appends right-side names not already present. -/
def DependenciesList.union (a b : DependenciesList) : DependenciesList :=
  b.foldl (fun acc n => if n ∈ acc then acc else acc ++ [n]) a

/-- Modelled from the spec: `DependenciesList.isEmpty`. -/
def DependenciesList.isEmpty (d : DependenciesList) : Bool := decide (d = [])

/-- Modelled from the spec: `DependenciesList.fromArray` builds the
ordered collection of the unique names of the array. -/
def DependenciesList.fromArray (a : List String) : DependenciesList := jsUniq a

/-- Modelled from the spec:
`deps.exactConstraintsIntersection(constraints)` — the constraints of
the list that are exact and whose name is in `deps`. -/
def DependenciesList.exactConstraintsIntersection
    (d : DependenciesList) (cl : ConstraintsList) : ConstraintsList :=
  cl.filter (fun c => c.exact && decide (c.name ∈ d))

/-- Modelled from the spec:
`constraints.exactDependenciesIntersection(deps)` — the constraints of
the list that are exact and whose name is in `deps`. -/
def ConstraintsList.exactDependenciesIntersection
    (cl : ConstraintsList) (d : DependenciesList) : ConstraintsList :=
  cl.filter (fun c => c.exact && decide (c.name ∈ d))

/-- Modelled from the spec: `ConstraintsList.union` adds the right-hand
constraints not already contained, in order. -/
def ConstraintsList.union (a b : ConstraintsList) : ConstraintsList :=
  b.foldl (fun acc c => if c ∈ acc then acc else acc ++ [c]) a

/-- Modelled from the spec: `ConstraintsList.fromArray`. -/
def ConstraintsList.fromArray (a : List Constraint) : ConstraintsList := jsUniq a

/-- `Constraint.prototype.isSatisfied` (resolver.js lines 432-441):
exact constraints compare the version for equality; inexact constraints
require `version ≤ uv.version` and `uv.ecv ≤ version`. -/
def Constraint.isSatisfied (c : Constraint) (uv : UnitVersion) : Bool :=
  if c.exact then decide (c.version = uv.version)
  else decide (c.version ≤ uv.version) && decide (uv.ecv ≤ c.version)

/-- Modelled from the spec: `ConstraintsList.violated(uv)` — some
contained constraint with `name = uv.name` is unsatisfied by `uv`. -/
def ConstraintsList.violated (cl : ConstraintsList) (uv : UnitVersion) : Bool :=
  cl.any (fun c => decide (c.name = uv.name) && !(Constraint.isSatisfied c uv))

/-- `ConstraintSolver.Resolver`'s registries (resolver.js lines 12-25). -/
structure Resolver where
  unitsVersions : SMap (List UnitVersion)
  unitsVersionsMap : SMap UnitVersion
  latestVersion : SMap Version
  constraints : SMap Constraint
deriving DecidableEq

/-- A freshly constructed resolver. -/
def emptyResolver : Resolver := ⟨[], [], [], []⟩

/-- First stage of `addUnitVersion` (lines 32-35): on a fresh name,
create the empty candidate list and initialise the latest version. -/
def addUV1 (r : Resolver) (uv : UnitVersion) : Resolver :=
  if SMap.has r.unitsVersions uv.name then r
  else { r with
    unitsVersions := SMap.insert r.unitsVersions uv.name [],
    latestVersion := SMap.insert r.latestVersion uv.name uv.version }

/-- Second stage of `addUnitVersion` (lines 37-40): on a fresh
`name@version` string, append to the candidate list and intern. -/
def addUV2 (r : Resolver) (uv : UnitVersion) : Resolver :=
  if SMap.has r.unitsVersionsMap (UnitVersion.str uv) then r
  else { r with
    unitsVersions := SMap.insert r.unitsVersions uv.name
      (((SMap.find? r.unitsVersions uv.name).getD []) ++ [uv]),
    unitsVersionsMap := SMap.insert r.unitsVersionsMap (UnitVersion.str uv) uv }

/-- Third stage of `addUnitVersion` (lines 42-43): bump the latest
version if exceeded.  (At this point the binding always exists for
registries reachable through the API; the default is inert.) -/
def addUV3 (r : Resolver) (uv : UnitVersion) : Resolver :=
  if ((SMap.find? r.latestVersion uv.name).getD uv.version) < uv.version then
    { r with latestVersion := SMap.insert r.latestVersion uv.name uv.version }
  else r

/-- `Resolver.prototype.addUnitVersion` (resolver.js lines 27-44), split
into its three sequential stages. -/
def Resolver.addUnitVersion (r : Resolver) (uv : UnitVersion) : Resolver :=
  addUV3 (addUV2 (addUV1 r uv) uv) uv

/-- JavaScript `"...".replace("=", "")`: remove the first `=` only. -/
def removeFirstEq : List Char → List Char
  | [] => []
  | ch :: cs => if ch = '=' then cs else ch :: removeFirstEq cs

/-- String wrapper for `removeFirstEq`. -/
def jsReplaceFirstEq (s : String) : String := String.mk (removeFirstEq s.data)

/-- `Constraint.prototype.getSatisfyingUnitVersion` (lines 444-454):
exact constraints look up `toString().replace("=", "")` in the
interning map; inexact ones scan the registration-ordered candidates
for the first satisfying one. -/
def Constraint.getSatisfyingUnitVersion (c : Constraint) (r : Resolver) :
    Option UnitVersion :=
  if c.exact then
    SMap.find? r.unitsVersionsMap (jsReplaceFirstEq (Constraint.toString c))
  else
    ((SMap.find? r.unitsVersions c.name).getD []).find?
      (fun uv => Constraint.isSatisfied c uv)

/-- The error message thrown when a constraint has no registered
satisfying unit version. -/
def noUVMsg (c : Constraint) : String :=
  "No unit version was found for the constraint -- " ++ Constraint.toString c

/-- Worker for `_exactTransitiveConstraints`: iterate over the
originally computed constraint list (the `each` of lines 351-359),
resolving each constraint, recursing into the satisfying unit version's
own closure, and accumulating unions.  Fuel decreases structurally on
every recursive call so the kernel can evaluate it; the JS recursion
has no cycle guard, so fuel exhaustion models its divergence. -/
def exactTransConsGo (r : Resolver) :
    Nat → List Constraint → ConstraintsList → Except String ConstraintsList
  | 0, _, _ => Except.error "Maximum call stack size exceeded"
  | _ + 1, [], acc => Except.ok acc
  | fuel + 1, c :: cs, acc =>
    match Constraint.getSatisfyingUnitVersion c r with
    | none => Except.error (noUVMsg c)
    | some uv =>
      match exactTransConsGo r fuel
          (DependenciesList.exactConstraintsIntersection uv.dependencies uv.constraints)
          (DependenciesList.exactConstraintsIntersection uv.dependencies uv.constraints) with
      | Except.error e => Except.error e
      | Except.ok more => exactTransConsGo r fuel cs (ConstraintsList.union acc more)

/-- `UnitVersion.prototype._exactTransitiveConstraints` (lines 345-362):
start from the exact constraints the unit imposes on its own
dependencies and union in, recursively, the closures of their
satisfying unit versions. -/
def exactTransCons (r : Resolver) : Nat → UnitVersion → Except String ConstraintsList
  | 0, _ => Except.error "Maximum call stack size exceeded"
  | fuel + 1, u =>
    exactTransConsGo r fuel
      (DependenciesList.exactConstraintsIntersection u.dependencies u.constraints)
      (DependenciesList.exactConstraintsIntersection u.dependencies u.constraints)

/-- Resolve every constraint of the list to its satisfying unit version
in order, throwing `noUVMsg` at the first failure (the `each` loops of
lines 275-280 and 368-374). -/
def resolveAll (r : Resolver) : List Constraint → Except String (List UnitVersion)
  | [] => Except.ok []
  | c :: cs =>
    match Constraint.getSatisfyingUnitVersion c r with
    | none => Except.error (noUVMsg c)
    | some uv =>
      match resolveAll r cs with
      | Except.error e => Except.error e
      | Except.ok uvs => Except.ok (uv :: uvs)

/-- Specification helper: the first constraint of the list without a
registered satisfying unit version, if any.  `resolveAll` fails exactly
on this constraint. -/
def firstFailing (r : Resolver) : List Constraint → Option Constraint
  | [] => none
  | c :: cs =>
    match Constraint.getSatisfyingUnitVersion c r with
    | none => some c
    | some _ => firstFailing r cs

/-- `UnitVersion.prototype.exactTransitiveDependenciesVersions`
(lines 365-377). -/
def exactTransitiveDependenciesVersions (r : Resolver) (fuel : Nat)
    (u : UnitVersion) : Except String (List UnitVersion) :=
  match exactTransCons r fuel u with
  | Except.error e => Except.error e
  | Except.ok etc => resolveAll r etc

/-- Union of the dependencies of the satisfying unit versions
(the first `each` of `inexactTransitiveDependencies`, lines 384-390). -/
def depsUnionAll (r : Resolver) :
    DependenciesList → List Constraint → Except String DependenciesList
  | deps, [] => Except.ok deps
  | deps, c :: cs =>
    match Constraint.getSatisfyingUnitVersion c r with
    | none => Except.error (noUVMsg c)
    | some uv => depsUnionAll r (DependenciesList.union deps uv.dependencies) cs

/-- `UnitVersion.prototype.inexactTransitiveDependencies`
(lines 379-398). -/
def inexactTransitiveDependencies (r : Resolver) (fuel : Nat)
    (u : UnitVersion) : Except String DependenciesList :=
  match exactTransCons r fuel u with
  | Except.error e => Except.error e
  | Except.ok etc =>
    match depsUnionAll r u.dependencies etc with
    | Except.error e => Except.error e
    | Except.ok deps =>
      Except.ok (etc.foldl (fun d c => DependenciesList.remove d c.name) deps)

/-- A search state (resolver.js lines 96-99). -/
structure RState where
  dependencies : DependenciesList
  constraints : ConstraintsList
  choices : List UnitVersion
deriving DecidableEq

/-- `choicesDontViolateConstraints` (resolver.js lines 298-302). -/
def choicesDontViolateConstraints (choices : List UnitVersion)
    (constraints : ConstraintsList) : Bool :=
  choices.all (fun uv => !(ConstraintsList.violated constraints uv))

/-- The union of `.constraints` over `_.union(etdv, [uv])`
(lines 249-252). -/
def transConstraintsOf (uv : UnitVersion) (etdv : List UnitVersion) : ConstraintsList :=
  (jsUnion etdv [uv]).foldl (fun acc u => ConstraintsList.union acc u.constraints) []

/-- The new exact constraint/dependency combinations exposed by the
dequeued unit version (lines 269-271). -/
def newExactOf (uv : UnitVersion) (cons : ConstraintsList) : ConstraintsList :=
  ConstraintsList.union
    (DependenciesList.exactConstraintsIntersection uv.dependencies cons)
    (ConstraintsList.exactDependenciesIntersection uv.constraints uv.dependencies)

/-- Enqueue the exact dependencies not already enqueued by name
(lines 283-288). -/
def enqueueAll (queue : List UnitVersion) (isEnqueued : List String)
    (deps : List UnitVersion) : List UnitVersion × List String :=
  deps.foldl
    (fun p d => if d.name ∈ p.2 then p else (p.1 ++ [d], p.2 ++ [d.name]))
    (queue, isEnqueued)

/-- One iteration of the `_propagateExactTransDeps` worklist loop
(lines 239-288): returns the updated state and the exact dependencies
to enqueue. -/
def propagateStep (r : Resolver) (fuel : Nat) (uv : UnitVersion) (st : RState) :
    Except String (RState × List UnitVersion) :=
  match exactTransitiveDependenciesVersions r fuel uv with
  | Except.error e => Except.error e
  | Except.ok etdv =>
    match inexactTransitiveDependencies r fuel uv with
    | Except.error e => Except.error e
    | Except.ok inexact =>
      let deps1 := DependenciesList.union st.dependencies inexact
      let cons1 := ConstraintsList.union st.constraints (transConstraintsOf uv etdv)
      let choices1 := jsUnion (st.choices ++ [uv]) etdv
      let deps2 := choices1.foldl (fun d u => DependenciesList.remove d u.name) deps1
      match resolveAll r (newExactOf uv cons1) with
      | Except.error e => Except.error e
      | Except.ok exactDeps => Except.ok (⟨deps2, cons1, choices1⟩, exactDeps)

/-- The `_propagateExactTransDeps` worklist loop (lines 239-289), with
fuel for the unbounded `while`. -/
def propagateLoop (r : Resolver) :
    Nat → List UnitVersion → List String → RState → Except String RState
  | 0, _, _, _ => Except.error "Maximum call stack size exceeded"
  | _ + 1, [], _, st => Except.ok st
  | fuel + 1, uv :: queue, isEnqueued, st =>
    match propagateStep r fuel uv st with
    | Except.error e => Except.error e
    | Except.ok (st1, exactDeps) =>
      let qe := enqueueAll queue isEnqueued exactDeps
      propagateLoop r fuel qe.1 qe.2 st1

/-- `Resolver.prototype._propagateExactTransDeps` (lines 225-296). -/
def propagateExactTransDeps (r : Resolver) (fuel : Nat) (uv : UnitVersion)
    (dependencies : DependenciesList) (constraints : ConstraintsList)
    (choices : List UnitVersion) : Except String RState :=
  propagateLoop r fuel [uv] [uv.name] ⟨dependencies, constraints, choices⟩

/-- Result record of `_stateNeighbors` (lines 164-168; the diagnostic
fields `triedUnitVersions`/`lastInvalidNeighbor` are omitted — they are
not part of the success contract). -/
structure NeighborsResult where
  success : Bool
  failureMsg : String
  neighbors : List RState
deriving DecidableEq

/-- Sequential map with JS exception semantics (underscore's `map`
where the callback can throw). -/
def mapME {α β : Type} (f : α → Except String β) : List α → Except String (List β)
  | [] => Except.ok []
  | x :: xs =>
    match f x with
    | Except.error e => Except.error e
    | Except.ok y =>
      match mapME f xs with
      | Except.error e => Except.error e
      | Except.ok ys => Except.ok (y :: ys)

/-- `Resolver.prototype._stateNeighbors` (resolver.js lines 171-217). -/
def stateNeighbors (r : Resolver) (fuel : Nat) (st : RState) :
    Except String NeighborsResult :=
  let candidateName := DependenciesList.peek st.dependencies
  let deps := DependenciesList.remove st.dependencies candidateName
  let candidateVersions :=
    ((SMap.find? r.unitsVersions candidateName).getD []).filter
      (fun uv => !(ConstraintsList.violated st.constraints uv))
  if candidateVersions = [] then
    Except.ok ⟨false, "Cannot choose satisfying versions of package -- " ++ candidateName, []⟩
  else
    match mapME
        (fun uv => propagateExactTransDeps r fuel uv deps st.constraints (st.choices ++ [uv]))
        candidateVersions with
    | Except.error e => Except.error e
    | Except.ok allStates =>
      let neighbors :=
        allStates.filter (fun s => choicesDontViolateConstraints s.choices s.constraints)
      if neighbors = [] then
        Except.ok ⟨false, "None of the versions unit produces a sensible result -- " ++ candidateName, []⟩
      else
        Except.ok ⟨true, "", neighbors⟩

/-- The caller-supplied options of `resolve` with the source defaults
filled in (resolver.js lines 76-84). -/
structure ResolveOptions where
  costFunction : List UnitVersion → Cost
  estimateCostFunction : RState → Cost
  combineCostFunction : Cost → Cost → Cost
  stopAfterFirstPropagation : Bool

/-- The defaults of resolver.js lines 76-84: zero costs, sum combiner,
no early stop. -/
def defaultOptions : ResolveOptions :=
  ⟨fun _ => Cost.fin 0, fun _ => Cost.fin 0, Cost.add, false⟩

/-- A priority-queue entry: the `[cost, tiebreak]` key and the state. -/
abbrev PQEntry := (Cost × Int) × RState

/-- Modelled from the spec: the priority order on `[cost, tiebreak]`
keys — lexicographic, so smaller combined cost first and, on a cost
tie, smaller tiebreak (i.e. more choices, the tiebreak being the
negated choice count) first. -/
def keyLEb (a b : Cost × Int) : Bool :=
  Cost.ltb a.1 b.1 || (decide (a.1 = b.1) && decide (a.2 ≤ b.2))

/-- Modelled from the spec: popping the priority queue returns an entry
with the lexicographically least key (first such entry on ties) and the
remaining entries. -/
def popMin : List PQEntry → Option (PQEntry × List PQEntry)
  | [] => none
  | x :: xs =>
    match popMin xs with
    | none => some (x, [])
    | some (y, rest) =>
      if keyLEb x.1 y.1 then some (x, xs) else some (y, x :: rest)

/-- The key used when pushing a neighbor state (resolver.js line 144):
`[combine(cost(choices), estimate(state)), -choices.length]`. -/
def pushKey (o : ResolveOptions) (s : RState) : Cost × Int :=
  (o.combineCostFunction (o.costFunction s.choices) (o.estimateCostFunction s),
   -(Int.ofNat s.choices.length))

/-- The initial queue of `resolve` (resolver.js line 116): the start
state is pushed with key `[estimatedStartingCost, 0]`. -/
def initialQueue (o : ResolveOptions) (st : RState) : List PQEntry :=
  [((o.combineCostFunction (o.costFunction st.choices) (o.estimateCostFunction st), 0), st)]

/-- The `while (!pq.empty())` search loop of `resolve`
(resolver.js lines 118-156), with fuel: pop the least-key state; stop
with an error when its plain cost-plus-estimate is `Infinity`; return
its choices when its dependencies are empty; otherwise expand neighbors,
remembering the first failure message, and continue. -/
def searchLoop (r : Resolver) (o : ResolveOptions) :
    Nat → List PQEntry → Option String → Except String (List UnitVersion)
  | 0, _, _ => Except.error "Search exceeded fuel"
  | fuel + 1, pq, someError =>
    match popMin pq with
    | none => Except.error (someError.getD "Couldn't resolve, I am sorry")
    | some ((_, currentState), rest) =>
      if Cost.add (o.costFunction currentState.choices)
          (o.estimateCostFunction currentState) = Cost.inf then
        Except.error (someError.getD "Couldn't resolve, I am sorry")
      else if DependenciesList.isEmpty currentState.dependencies then
        Except.ok currentState.choices
      else
        match stateNeighbors r fuel currentState with
        | Except.error e => Except.error e
        | Except.ok nb =>
          if nb.success then
            searchLoop r o fuel
              (rest ++ nb.neighbors.map (fun s => (pushKey o s, s))) someError
          else
            searchLoop r o fuel rest (some (someError.getD nb.failureMsg))

/-- Line 101 of `resolve`: strip the synthetic `target` entries from the
start state's choices. -/
def stripTarget (st : RState) : RState :=
  { st with choices := st.choices.filter (fun uv => decide (uv.name ≠ "target")) }

/-- Lines 86-101 of `resolve`: build the synthetic `target` unit version
carrying the requested dependencies and constraints, propagate it, and
strip `target` from the resulting choices. -/
def startStateOf (r : Resolver) (fuel : Nat) (dependencies : List String)
    (constraints : List Constraint) (choices : List UnitVersion) :
    Except String RState :=
  let dl := DependenciesList.fromArray dependencies
  let cl := ConstraintsList.fromArray constraints
  let appUV : UnitVersion := ⟨"target", 1, 0, dl, cl⟩
  match propagateExactTransDeps r fuel appUV dl cl choices with
  | Except.error e => Except.error e
  | Except.ok st => Except.ok (stripTarget st)

/-- `Resolver.prototype.resolve` (resolver.js lines 70-157).  The
`constraints` and `choices` arguments may be omitted/null (lines 74-75),
modelled by `Option`. -/
def Resolver.resolve (r : Resolver) (fuel : Nat) (dependencies : List String)
    (constraints : Option (List Constraint)) (choices : Option (List UnitVersion))
    (options : ResolveOptions) : Except String (List UnitVersion) :=
  match startStateOf r fuel dependencies (constraints.getD []) (choices.getD []) with
  | Except.error e => Except.error e
  | Except.ok startState =>
    if options.stopAfterFirstPropagation then Except.ok startState.choices
    else searchLoop r options fuel (initialQueue options startState) none

/-- Left-fold maximum of a version list (`none` on the empty list);
used to state the monotone-latest property. -/
def listMax : List Version → Option Version
  | [] => none
  | v :: vs => some (vs.foldl max v)

/-- Specification helper: running maximum of a version list starting
from an optional previous maximum; describes how `addUnitVersion`
updates `latestVersion` along a sequence of registrations. -/
def mergeOpt : Option Version → List Version → Option Version
  | o, [] => o
  | o, v :: vs => mergeOpt (some (max (o.getD v) v)) vs

/-- Registry well-formedness tying `unitsVersions` and `latestVersion`
domains together; it holds for every registry built through the API. -/
def LatestWF (r : Resolver) : Prop :=
  ∀ n, (SMap.find? r.unitsVersions n).isSome = (SMap.find? r.latestVersion n).isSome

/- Concrete objects used to run the code on explicit inputs. -/

/-- Release `A@1` with no dependencies. -/
def uvA1 : UnitVersion := ⟨"A", 1, 1, [], []⟩

/-- Release `A@2` with no dependencies. -/
def uvA2 : UnitVersion := ⟨"A", 2, 2, [], []⟩

/-- Release `B@1` with no dependencies. -/
def uvB1 : UnitVersion := ⟨"B", 1, 1, [], []⟩

/-- Release `A@1` depending on `B` with no constraints. -/
def uvAdepB : UnitVersion := ⟨"A", 1, 1, ["B"], []⟩

/-- A release whose package name contains an `=` character. -/
def uvPeq : UnitVersion := ⟨"p=q", 1, 1, [], []⟩

/-- Exact constraint `A@=1`. -/
def cA1x : Constraint := ⟨"A", true, 1⟩

/-- Exact constraint `A@=2`. -/
def cA2x : Constraint := ⟨"A", true, 2⟩

/-- Exact constraint `B@=123`, never registered below. -/
def cB123x : Constraint := ⟨"B", true, 123⟩

/-- Exact constraint on the `=`-bearing package name. -/
def cPeqx : Constraint := ⟨"p=q", true, 1⟩

/-- Registry holding `A@1` and `A@2`. -/
def rA12 : Resolver :=
  Resolver.addUnitVersion (Resolver.addUnitVersion emptyResolver uvA1) uvA2

/-- Registry holding only `A@1`. -/
def rA1 : Resolver := Resolver.addUnitVersion emptyResolver uvA1

/-- Registry holding only `B@1`. -/
def rB1 : Resolver := Resolver.addUnitVersion emptyResolver uvB1

/-- Registry holding only `A@1`-depending-on-`B` (no `B` registered). -/
def rAB : Resolver := Resolver.addUnitVersion emptyResolver uvAdepB

/-- Registry holding only the `=`-bearing package. -/
def rPeq : Resolver := Resolver.addUnitVersion emptyResolver uvPeq

/-- A second `A@1` object, distinct from `uvA1` (different ecv) but with
the same name and version. -/
def uvA1b : UnitVersion := ⟨"A", 1, 9, [], []⟩

deriving instance DecidableEq for Except

/- Helper lemmas. -/

theorem SMap.find?_insert_self {α : Type} (m : SMap α) (k : String) (v : α) :
    SMap.find? (SMap.insert m k v) k = some v := by
  induction m with
  | nil => simp [SMap.insert, SMap.find?]
  | cons p m ih =>
    by_cases h : p.1 = k
    · simp [SMap.insert, SMap.find?, h]
    · simp [SMap.insert, SMap.find?, h, ih]

theorem SMap.find?_insert_ne {α : Type} (m : SMap α) {k k' : String} (v : α)
    (h : k ≠ k') : SMap.find? (SMap.insert m k v) k' = SMap.find? m k' := by
  induction m with
  | nil => simp [SMap.insert, SMap.find?, h]
  | cons p m ih =>
    by_cases hp : p.1 = k
    · simp [SMap.insert, SMap.find?, hp, h]
    · by_cases hp' : p.1 = k'
      · simp [SMap.insert, SMap.find?, hp, hp', Ne.symm h]
      · simp [SMap.insert, SMap.find?, hp, hp', ih]

theorem mem_of_mem_jsUniqAux {α : Type} [DecidableEq α] {a : α} :
    ∀ {l seen : List α}, a ∈ jsUniqAux seen l → a ∈ l := by
  intro l
  induction l with
  | nil => intro seen h; simp [jsUniqAux] at h
  | cons x xs ih =>
    intro seen h
    by_cases hx : x ∈ seen
    · simp only [jsUniqAux, if_pos hx] at h
      exact List.mem_cons_of_mem _ (ih h)
    · simp only [jsUniqAux, if_neg hx, List.mem_cons] at h
      rcases h with h | h
      · exact h ▸ List.mem_cons_self _ _
      · exact List.mem_cons_of_mem _ (ih h)

theorem jsUniqAux_not_mem_seen {α : Type} [DecidableEq α] {a : α} :
    ∀ {l seen : List α}, a ∈ jsUniqAux seen l → a ∉ seen := by
  intro l
  induction l with
  | nil => intro seen h; simp [jsUniqAux] at h
  | cons x xs ih =>
    intro seen h
    by_cases hx : x ∈ seen
    · simp only [jsUniqAux, if_pos hx] at h
      exact ih h
    · simp only [jsUniqAux, if_neg hx, List.mem_cons] at h
      rcases h with h | h
      · exact h ▸ hx
      · intro hs
        exact ih h (List.mem_cons_of_mem _ hs)

theorem jsUniqAux_nodup {α : Type} [DecidableEq α] :
    ∀ (l seen : List α), (jsUniqAux seen l).Nodup := by
  intro l
  induction l with
  | nil => intro seen; simp [jsUniqAux]
  | cons x xs ih =>
    intro seen
    by_cases hx : x ∈ seen
    · simpa [jsUniqAux, hx] using ih seen
    · simp only [jsUniqAux, if_neg hx, List.nodup_cons]
      refine ⟨fun hmem => ?_, ih (x :: seen)⟩
      exact jsUniqAux_not_mem_seen hmem (List.mem_cons_self _ _)

theorem jsUniq_nodup {α : Type} [DecidableEq α] (l : List α) :
    (jsUniq l).Nodup := jsUniqAux_nodup l []

theorem keyLEb_refl (a : Cost × Int) : keyLEb a a = true := by
  cases a with
  | mk c n => cases c <;> simp [keyLEb, Cost.ltb]

theorem keyLEb_total (a b : Cost × Int) : keyLEb a b = true ∨ keyLEb b a = true := by
  rcases a with ⟨c, n⟩
  rcases b with ⟨d, m⟩
  cases c with
  | fin x =>
    cases d with
    | fin y =>
      rcases lt_trichotomy x y with h | h | h
      · left; simp [keyLEb, Cost.ltb, h]
      · subst h
        rcases le_total n m with h2 | h2
        · left; simp [keyLEb, Cost.ltb, h2]
        · right; simp [keyLEb, Cost.ltb, h2]
      · right; simp [keyLEb, Cost.ltb, h]
    | inf => left; simp [keyLEb, Cost.ltb]
  | inf =>
    cases d with
    | fin y => right; simp [keyLEb, Cost.ltb]
    | inf =>
      rcases le_total n m with h2 | h2
      · left; simp [keyLEb, Cost.ltb, h2]
      · right; simp [keyLEb, Cost.ltb, h2]

theorem keyLEb_trans {a b c : Cost × Int} (h1 : keyLEb a b = true)
    (h2 : keyLEb b c = true) : keyLEb a c = true := by
  rcases a with ⟨x, n⟩
  rcases b with ⟨y, m⟩
  rcases c with ⟨z, p⟩
  cases x <;> cases y <;> cases z <;>
    simp_all [keyLEb, Cost.ltb] <;> omega

theorem popMin_eq_none {l : List PQEntry} (h : popMin l = none) : l = [] := by
  cases l with
  | nil => rfl
  | cons x xs =>
    simp only [popMin] at h
    rcases hx : popMin xs with _ | ⟨y, rest⟩ <;> rw [hx] at h
    · simp at h
    · by_cases hk : keyLEb x.1 y.1 = true <;> simp [hk] at h

theorem popMin_mem : ∀ {l : List PQEntry} {x : PQEntry} {rest : List PQEntry},
    popMin l = some (x, rest) → x ∈ l := by
  intro l
  induction l with
  | nil => intro x rest h; simp [popMin] at h
  | cons a xs ih =>
    intro x rest h
    simp only [popMin] at h
    rcases hx : popMin xs with _ | ⟨⟨y, rest0⟩⟩ <;> rw [hx] at h
    · simp at h
      exact h.1 ▸ List.mem_cons_self _ _
    · by_cases hk : keyLEb a.1 y.1 = true <;> simp [hk] at h
      · exact h.1 ▸ List.mem_cons_self _ _
      · exact List.mem_cons_of_mem _ (h.1 ▸ ih hx)

theorem popMin_rest_mem : ∀ {l : List PQEntry} {x y : PQEntry} {rest : List PQEntry},
    popMin l = some (x, rest) → y ∈ rest → y ∈ l := by
  intro l
  induction l with
  | nil => intro x y rest h; simp [popMin] at h
  | cons a xs ih =>
    intro x y rest h hy
    rcases hx : popMin xs with _ | ⟨⟨z, rest0⟩⟩ <;> simp only [popMin, hx] at h
    · rw [Option.some.injEq, Prod.mk.injEq] at h
      obtain ⟨h1, h2⟩ := h
      subst h2
      simp at hy
    · by_cases hk : keyLEb a.1 z.1 = true
      · rw [if_pos hk, Option.some.injEq, Prod.mk.injEq] at h
        obtain ⟨h1, h2⟩ := h
        subst h2
        exact List.mem_cons_of_mem _ hy
      · rw [if_neg hk, Option.some.injEq, Prod.mk.injEq] at h
        obtain ⟨h1, h2⟩ := h
        subst h2
        rcases List.mem_cons.mp hy with hy | hy
        · exact hy ▸ List.mem_cons_self _ _
        · exact List.mem_cons_of_mem _ (ih hx hy)

theorem popMin_min : ∀ {l : List PQEntry} {x : PQEntry} {rest : List PQEntry},
    popMin l = some (x, rest) → ∀ y ∈ l, keyLEb x.1 y.1 = true := by
  intro l
  induction l with
  | nil => intro x rest h; simp [popMin] at h
  | cons a xs ih =>
    intro x rest h y hy
    rcases hx : popMin xs with _ | ⟨⟨z, rest0⟩⟩ <;> simp only [popMin, hx] at h
    · rw [Option.some.injEq, Prod.mk.injEq] at h
      obtain ⟨h1, h2⟩ := h
      subst h1
      have hxs := popMin_eq_none hx
      subst hxs
      rcases List.mem_cons.mp hy with hy | hy
      · subst hy; exact keyLEb_refl _
      · simp at hy
    · by_cases hk : keyLEb a.1 z.1 = true
      · rw [if_pos hk, Option.some.injEq, Prod.mk.injEq] at h
        obtain ⟨h1, h2⟩ := h
        subst h1
        rcases List.mem_cons.mp hy with hy | hy
        · subst hy; exact keyLEb_refl _
        · exact keyLEb_trans hk (ih hx y hy)
      · rw [if_neg hk, Option.some.injEq, Prod.mk.injEq] at h
        obtain ⟨h1, h2⟩ := h
        rcases List.mem_cons.mp hy with hy | hy
        · rcases keyLEb_total a.1 z.1 with ht | ht
          · exact absurd ht hk
          · exact hy.symm ▸ h1 ▸ ht
        · exact h1 ▸ ih hx y hy

theorem mapME_ok_mem {α β : Type} {f : α → Except String β} :
    ∀ {l : List α} {out : List β}, mapME f l = Except.ok out →
      ∀ y ∈ out, ∃ x ∈ l, f x = Except.ok y := by
  intro l
  induction l with
  | nil =>
    intro out h y hy
    simp only [mapME] at h
    cases h
    simp at hy
  | cons x xs ih =>
    intro out h y hy
    simp only [mapME] at h
    rcases hfx : f x with _ | z <;> rw [hfx] at h
    · cases h
    · rcases hrest : mapME f xs with _ | zs <;> rw [hrest] at h
      · cases h
      · cases h
        rcases List.mem_cons.mp hy with hy | hy
        · exact ⟨x, List.mem_cons_self _ _, hy ▸ hfx⟩
        · rcases ih hrest y hy with ⟨w, hw, hfw⟩
          exact ⟨w, List.mem_cons_of_mem _ hw, hfw⟩

theorem list_find?_some_split {α : Type} {p : α → Bool} :
    ∀ {l : List α} {a : α}, l.find? p = some a →
      p a = true ∧ ∃ pre post, l = pre ++ a :: post ∧ ∀ x ∈ pre, p x = false := by
  intro l
  induction l with
  | nil => intro a h; simp at h
  | cons x xs ih =>
    intro a h
    by_cases hx : p x = true
    · rw [List.find?_cons_of_pos _ hx] at h
      cases h
      exact ⟨hx, [], xs, rfl, by simp⟩
    · rw [List.find?_cons_of_neg _ hx] at h
      rcases ih h with ⟨hpa, pre, post, heq, hpre⟩
      refine ⟨hpa, x :: pre, post, by simp [heq], ?_⟩
      intro z hz
      rcases List.mem_cons.mp hz with hz | hz
      · subst hz; exact Bool.eq_false_iff.mpr hx
      · exact hpre z hz

theorem propagateStep_ok_nodup {r : Resolver} {fuel : Nat} {uv : UnitVersion}
    {st st1 : RState} {ed : List UnitVersion}
    (h : propagateStep r fuel uv st = Except.ok (st1, ed)) : st1.choices.Nodup := by
  unfold propagateStep at h
  split at h
  · exact absurd h (by simp)
  · split at h
    · exact absurd h (by simp)
    · dsimp only at h
      split at h
      · exact absurd h (by simp)
      · rw [Except.ok.injEq, Prod.mk.injEq] at h
        rw [← h.1]
        exact jsUniq_nodup _

theorem propagateLoop_ok_nodup {r : Resolver} :
    ∀ {fuel : Nat} {q : List UnitVersion} {enq : List String} {st out : RState},
      propagateLoop r fuel q enq st = Except.ok out →
      (q = [] ∧ out = st) ∨ out.choices.Nodup := by
  intro fuel
  induction fuel with
  | zero => intro q enq st out h; simp [propagateLoop] at h
  | succ fuel ih =>
    intro q enq st out h
    cases q with
    | nil =>
      simp only [propagateLoop] at h
      cases h
      exact Or.inl ⟨rfl, rfl⟩
    | cons uv queue =>
      simp only [propagateLoop] at h
      rcases hs : propagateStep r fuel uv st with e | ⟨st1, ed⟩ <;> simp only [hs] at h
      · exact absurd h (by simp)
      · rcases ih h with ⟨hq, hout⟩ | hout
        · exact Or.inr (hout ▸ propagateStep_ok_nodup hs)
        · exact Or.inr hout

theorem propagateExactTransDeps_ok_nodup {r : Resolver} {fuel : Nat}
    {uv : UnitVersion} {dl : DependenciesList} {cl : ConstraintsList}
    {chs : List UnitVersion} {out : RState}
    (h : propagateExactTransDeps r fuel uv dl cl chs = Except.ok out) :
    out.choices.Nodup := by
  rcases propagateLoop_ok_nodup h with ⟨hq, _⟩ | hout
  · cases hq
  · exact hout

theorem stateNeighbors_ok_pred {r : Resolver} {fuel : Nat} {st : RState}
    {nb : NeighborsResult} (h : stateNeighbors r fuel st = Except.ok nb) :
    ∀ s ∈ nb.neighbors,
      choicesDontViolateConstraints s.choices s.constraints = true := by
  intro s hs
  unfold stateNeighbors at h
  by_cases hc : (((SMap.find? r.unitsVersions (DependenciesList.peek st.dependencies)).getD []).filter
      (fun uv => !(ConstraintsList.violated st.constraints uv))) = []
  · rw [if_pos hc] at h
    cases h
    simp at hs
  · rw [if_neg hc] at h
    rcases hm : mapME (fun uv => propagateExactTransDeps r fuel uv
        (DependenciesList.remove st.dependencies (DependenciesList.peek st.dependencies))
        st.constraints (st.choices ++ [uv]))
        (((SMap.find? r.unitsVersions (DependenciesList.peek st.dependencies)).getD []).filter
          (fun uv => !(ConstraintsList.violated st.constraints uv))) with e | allStates <;>
      simp only [hm] at h
    · cases h
    · by_cases hn : (allStates.filter
          (fun s => choicesDontViolateConstraints s.choices s.constraints)) = []
      · rw [if_pos hn] at h
        cases h
        simp at hs
      · rw [if_neg hn] at h
        cases h
        exact (List.mem_filter.mp hs).2

theorem stateNeighbors_ok_from_propagate {r : Resolver} {fuel : Nat} {st : RState}
    {nb : NeighborsResult} (h : stateNeighbors r fuel st = Except.ok nb) :
    ∀ s ∈ nb.neighbors, ∃ uv,
      propagateExactTransDeps r fuel uv
        (DependenciesList.remove st.dependencies (DependenciesList.peek st.dependencies))
        st.constraints (st.choices ++ [uv]) = Except.ok s := by
  intro s hs
  unfold stateNeighbors at h
  by_cases hc : (((SMap.find? r.unitsVersions (DependenciesList.peek st.dependencies)).getD []).filter
      (fun uv => !(ConstraintsList.violated st.constraints uv))) = []
  · rw [if_pos hc] at h
    cases h
    simp at hs
  · rw [if_neg hc] at h
    rcases hm : mapME (fun uv => propagateExactTransDeps r fuel uv
        (DependenciesList.remove st.dependencies (DependenciesList.peek st.dependencies))
        st.constraints (st.choices ++ [uv]))
        (((SMap.find? r.unitsVersions (DependenciesList.peek st.dependencies)).getD []).filter
          (fun uv => !(ConstraintsList.violated st.constraints uv))) with e | allStates <;>
      simp only [hm] at h
    · cases h
    · by_cases hn : (allStates.filter
          (fun s => choicesDontViolateConstraints s.choices s.constraints)) = []
      · rw [if_pos hn] at h
        cases h
        simp at hs
      · rw [if_neg hn] at h
        cases h
        have hsAll : s ∈ allStates := (List.mem_filter.mp hs).1
        rcases mapME_ok_mem hm s hsAll with ⟨uv, _, hprop⟩
        exact ⟨uv, hprop⟩

theorem searchLoop_ok_sound {r : Resolver} {o : ResolveOptions} (P : RState → Prop)
    (hN : ∀ fuelN st nb, stateNeighbors r fuelN st = Except.ok nb → nb.success = true →
      ∀ s ∈ nb.neighbors, P s) :
    ∀ {fuel : Nat} {pq : List PQEntry} {err : Option String} {sol : List UnitVersion},
      (∀ e ∈ pq, P e.2) → searchLoop r o fuel pq err = Except.ok sol →
      ∃ s, P s ∧ sol = s.choices := by
  intro fuel
  induction fuel with
  | zero => intro pq err sol hpq h; simp [searchLoop] at h
  | succ fuel ih =>
    intro pq err sol hpq h
    rcases hpop : popMin pq with _ | ⟨⟨⟨k, st⟩, rest⟩⟩ <;>
      simp only [searchLoop, hpop] at h
    · cases h
    · by_cases hinf : Cost.add (o.costFunction st.choices) (o.estimateCostFunction st) = Cost.inf
      · rw [if_pos hinf] at h; cases h
      · rw [if_neg hinf] at h
        by_cases hterm : DependenciesList.isEmpty st.dependencies = true
        · rw [if_pos hterm] at h
          cases h
          exact ⟨st, hpq _ (popMin_mem hpop), rfl⟩
        · rw [if_neg hterm] at h
          rcases hnb : stateNeighbors r fuel st with e | nb <;> simp only [hnb] at h
          · cases h
          · by_cases hsucc : nb.success = true
            · rw [if_pos hsucc] at h
              refine ih ?_ h
              intro e he
              rcases List.mem_append.mp he with he | he
              · exact hpq _ (popMin_rest_mem hpop he)
              · rcases List.mem_map.mp he with ⟨s, hsmem, rfl⟩
                exact hN fuel st nb hnb hsucc s hsmem
            · rw [if_neg hsucc] at h
              refine ih ?_ h
              intro e he
              exact hpq _ (popMin_rest_mem hpop he)

theorem resolveAll_error_of_firstFailing {r : Resolver} :
    ∀ {cl : List Constraint} {c : Constraint},
      firstFailing r cl = some c →
      resolveAll r cl = Except.error (noUVMsg c) := by
  intro cl
  induction cl with
  | nil => intro c h; simp [firstFailing] at h
  | cons c0 cs ih =>
    intro c h
    rcases hg : Constraint.getSatisfyingUnitVersion c0 r with _ | uv <;>
      simp only [firstFailing, hg] at h
    · cases h
      simp [resolveAll, hg]
    · have h1 := ih h
      simp [resolveAll, hg, h1]

theorem propagateStep_error_noUV {r : Resolver} {fuel : Nat} {uv : UnitVersion}
    {st : RState} {etdv : List UnitVersion} {inexact : DependenciesList} {c : Constraint}
    (h1 : exactTransitiveDependenciesVersions r fuel uv = Except.ok etdv)
    (h2 : inexactTransitiveDependencies r fuel uv = Except.ok inexact)
    (h3 : firstFailing r (newExactOf uv (ConstraintsList.union st.constraints
            (transConstraintsOf uv etdv))) = some c) :
    propagateStep r fuel uv st = Except.error (noUVMsg c) := by
  unfold propagateStep
  rw [h1, h2]
  simp only
  rw [resolveAll_error_of_firstFailing h3]

theorem propagateLoop_error_head {r : Resolver} {fuel : Nat} {uv : UnitVersion}
    {q : List UnitVersion} {enq : List String} {st : RState} {e : String}
    (h : propagateStep r fuel uv st = Except.error e) :
    propagateLoop r (fuel + 1) (uv :: q) enq st = Except.error e := by
  simp [propagateLoop, h]

theorem addUV1_name_isSome (r : Resolver) (uv : UnitVersion) :
    (SMap.find? (addUV1 r uv).unitsVersions uv.name).isSome = true := by
  unfold addUV1
  split
  · next h => simpa [SMap.has] using h
  · simp [SMap.find?_insert_self]

theorem addUV2_name_isSome {r : Resolver} {uv : UnitVersion}
    (h : (SMap.find? r.unitsVersions uv.name).isSome = true) :
    (SMap.find? (addUV2 r uv).unitsVersions uv.name).isSome = true := by
  unfold addUV2
  split
  · exact h
  · simp [SMap.find?_insert_self]

theorem addUV3_unitsVersions (r : Resolver) (uv : UnitVersion) :
    (addUV3 r uv).unitsVersions = r.unitsVersions := by
  unfold addUV3; split <;> rfl

theorem addUV3_unitsVersionsMap (r : Resolver) (uv : UnitVersion) :
    (addUV3 r uv).unitsVersionsMap = r.unitsVersionsMap := by
  unfold addUV3; split <;> rfl

theorem addUV1_unitsVersionsMap (r : Resolver) (uv : UnitVersion) :
    (addUV1 r uv).unitsVersionsMap = r.unitsVersionsMap := by
  unfold addUV1; split <;> rfl

theorem addUV2_latest (r : Resolver) (uv : UnitVersion) :
    (addUV2 r uv).latestVersion = r.latestVersion := by
  unfold addUV2; split <;> rfl

theorem addUV2_map_isSome (r : Resolver) (uv : UnitVersion) :
    (SMap.find? (addUV2 r uv).unitsVersionsMap (UnitVersion.str uv)).isSome = true := by
  unfold addUV2
  split
  · next h => simpa [SMap.has] using h
  · simp [SMap.find?_insert_self]

theorem addUV3_latest_find (r : Resolver) (uv : UnitVersion) :
    SMap.find? (addUV3 r uv).latestVersion uv.name =
      if (SMap.find? r.latestVersion uv.name).getD uv.version < uv.version
      then some uv.version else SMap.find? r.latestVersion uv.name := by
  unfold addUV3
  split
  · exact SMap.find?_insert_self _ _ _
  · rfl

theorem addUV3_latest_ge (r : Resolver) (uv : UnitVersion) :
    ¬ ((SMap.find? (addUV3 r uv).latestVersion uv.name).getD uv.version < uv.version) := by
  rw [addUV3_latest_find]
  split
  · simp
  · next h => exact h

theorem addUV1_latest_ne {r : Resolver} {uv : UnitVersion} {n : String}
    (hne : uv.name ≠ n) :
    SMap.find? (addUV1 r uv).latestVersion n = SMap.find? r.latestVersion n := by
  unfold addUV1
  split
  · rfl
  · exact SMap.find?_insert_ne _ _ hne

theorem addUV3_latest_ne {r : Resolver} {uv : UnitVersion} {n : String}
    (hne : uv.name ≠ n) :
    SMap.find? (addUV3 r uv).latestVersion n = SMap.find? r.latestVersion n := by
  unfold addUV3
  split
  · exact SMap.find?_insert_ne _ _ hne
  · rfl

theorem addUV1_unitsVersions_ne {r : Resolver} {uv : UnitVersion} {n : String}
    (hne : uv.name ≠ n) :
    SMap.find? (addUV1 r uv).unitsVersions n = SMap.find? r.unitsVersions n := by
  unfold addUV1
  split
  · rfl
  · exact SMap.find?_insert_ne _ _ hne

theorem addUV2_unitsVersions_ne {r : Resolver} {uv : UnitVersion} {n : String}
    (hne : uv.name ≠ n) :
    SMap.find? (addUV2 r uv).unitsVersions n = SMap.find? r.unitsVersions n := by
  unfold addUV2
  split
  · rfl
  · exact SMap.find?_insert_ne _ _ hne

theorem add_name_isSome (r : Resolver) (uv : UnitVersion) :
    (SMap.find? (Resolver.addUnitVersion r uv).unitsVersions uv.name).isSome = true := by
  unfold Resolver.addUnitVersion
  rw [addUV3_unitsVersions]
  exact addUV2_name_isSome (addUV1_name_isSome r uv)

theorem add_map_isSome (r : Resolver) (uv : UnitVersion) :
    (SMap.find? (Resolver.addUnitVersion r uv).unitsVersionsMap
      (UnitVersion.str uv)).isSome = true := by
  unfold Resolver.addUnitVersion
  rw [addUV3_unitsVersionsMap]
  exact addUV2_map_isSome _ _

theorem add_latest_ge (r : Resolver) (uv : UnitVersion) :
    ¬ ((SMap.find? (Resolver.addUnitVersion r uv).latestVersion uv.name).getD
        uv.version < uv.version) := by
  unfold Resolver.addUnitVersion
  exact addUV3_latest_ge _ _

theorem add_add_same {r : Resolver} {uv uv' : UnitVersion}
    (hn : uv'.name = uv.name) (hv : uv'.version = uv.version) :
    Resolver.addUnitVersion (Resolver.addUnitVersion r uv) uv' =
      Resolver.addUnitVersion r uv := by
  have hstr : UnitVersion.str uv' = UnitVersion.str uv := by
    unfold UnitVersion.str; rw [hn, hv]
  set r1 := Resolver.addUnitVersion r uv with hr1
  have c1 : SMap.has r1.unitsVersions uv'.name = true := by
    rw [hn]
    show (SMap.find? r1.unitsVersions uv.name).isSome = true
    rw [hr1]
    exact add_name_isSome r uv
  have c2 : SMap.has r1.unitsVersionsMap (UnitVersion.str uv') = true := by
    rw [hstr]
    show (SMap.find? r1.unitsVersionsMap (UnitVersion.str uv)).isSome = true
    rw [hr1]
    exact add_map_isSome r uv
  have c3 : ¬ ((SMap.find? r1.latestVersion uv'.name).getD uv'.version < uv'.version) := by
    rw [hn, hv, hr1]
    exact add_latest_ge r uv
  have step1 : addUV1 r1 uv' = r1 := by unfold addUV1; rw [if_pos c1]
  have step2 : addUV2 r1 uv' = r1 := by unfold addUV2; rw [if_pos c2]
  have step3 : addUV3 r1 uv' = r1 := by unfold addUV3; rw [if_neg c3]
  show Resolver.addUnitVersion r1 uv' = r1
  unfold Resolver.addUnitVersion
  rw [step1, step2, step3]

theorem addUV1_getD (r : Resolver) (uv : UnitVersion) :
    (SMap.find? (addUV1 r uv).unitsVersions uv.name).getD [] =
      (SMap.find? r.unitsVersions uv.name).getD [] := by
  unfold addUV1
  split
  · rfl
  · next h =>
    rcases hf : SMap.find? r.unitsVersions uv.name with _ | v
    · simp [SMap.find?_insert_self]
    · exact absurd (by simp [SMap.has, hf]) h

theorem add_first_insert {r : Resolver} {uv : UnitVersion}
    (h : SMap.has r.unitsVersionsMap (UnitVersion.str uv) = false) :
    SMap.find? (Resolver.addUnitVersion r uv).unitsVersions uv.name =
      some (((SMap.find? r.unitsVersions uv.name).getD []) ++ [uv]) ∧
    SMap.find? (Resolver.addUnitVersion r uv).unitsVersionsMap (UnitVersion.str uv) =
      some uv := by
  have h1 : SMap.has (addUV1 r uv).unitsVersionsMap (UnitVersion.str uv) = false := by
    rw [SMap.has, addUV1_unitsVersionsMap]
    exact h
  unfold Resolver.addUnitVersion
  rw [addUV3_unitsVersions, addUV3_unitsVersionsMap]
  unfold addUV2
  rw [if_neg (by rw [h1]; exact Bool.false_ne_true)]
  constructor
  · rw [SMap.find?_insert_self, addUV1_getD]
  · exact SMap.find?_insert_self _ _ _

theorem emptyResolver_LatestWF : LatestWF emptyResolver := fun _ => rfl

theorem add_LatestWF {r : Resolver} {uv : UnitVersion} (hwf : LatestWF r) :
    LatestWF (Resolver.addUnitVersion r uv) := by
  intro n
  by_cases hn : uv.name = n
  · subst hn
    rw [add_name_isSome]
    unfold Resolver.addUnitVersion
    rw [addUV3_latest_find, addUV2_latest]
    by_cases hh : (SMap.find? r.unitsVersions uv.name).isSome = true
    · have hl : (SMap.find? r.latestVersion uv.name).isSome = true := (hwf uv.name) ▸ hh
      have h1 : addUV1 r uv = r := by unfold addUV1; rw [if_pos (by simpa [SMap.has] using hh)]
      rw [h1]
      split
      · rfl
      · exact hl.symm
    · have h1 : (addUV1 r uv).latestVersion = SMap.insert r.latestVersion uv.name uv.version := by
        unfold addUV1
        rw [if_neg (by simpa [SMap.has] using hh)]

      rw [h1, SMap.find?_insert_self]
      split <;> rfl
  · unfold Resolver.addUnitVersion
    rw [addUV3_unitsVersions, addUV3_latest_ne hn, addUV2_unitsVersions_ne hn,
      addUV2_latest, addUV1_unitsVersions_ne hn, addUV1_latest_ne hn]
    exact hwf n

theorem add_latest_step {r : Resolver} {uv : UnitVersion} (hwf : LatestWF r) (n : String) :
    SMap.find? (Resolver.addUnitVersion r uv).latestVersion n =
      if uv.name = n then
        some (max ((SMap.find? r.latestVersion n).getD uv.version) uv.version)
      else SMap.find? r.latestVersion n := by
  by_cases hn : uv.name = n
  · subst hn
    rw [if_pos rfl]
    unfold Resolver.addUnitVersion
    rw [addUV3_latest_find, addUV2_latest]
    by_cases hh : (SMap.find? r.unitsVersions uv.name).isSome = true
    · have hl : (SMap.find? r.latestVersion uv.name).isSome = true := (hwf uv.name) ▸ hh
      rcases hw : SMap.find? r.latestVersion uv.name with _ | w
      · rw [hw] at hl; simp at hl
      · have h1 : addUV1 r uv = r := by unfold addUV1; rw [if_pos (by simpa [SMap.has] using hh)]
        rw [h1, hw]
        by_cases hlt : w < uv.version
        · rw [if_pos (by simpa using hlt)]
          simp only [Option.getD_some]
          rw [max_eq_right (le_of_lt hlt)]
        · rw [if_neg (by simpa using hlt)]
          simp only [Option.getD_some]
          rw [max_eq_left (le_of_not_lt hlt)]
    · have hl : SMap.find? r.latestVersion uv.name = none := by
        have := (hwf uv.name) ▸ hh
        rcases hw : SMap.find? r.latestVersion uv.name with _ | w
        · rfl
        · rw [hw] at this; simp at this
      have h1 : (addUV1 r uv).latestVersion = SMap.insert r.latestVersion uv.name uv.version := by
        unfold addUV1
        rw [if_neg (by simpa [SMap.has] using hh)]
      rw [h1, SMap.find?_insert_self, hl]
      simp
  · rw [if_neg hn]
    unfold Resolver.addUnitVersion
    rw [addUV3_latest_ne hn, addUV2_latest, addUV1_latest_ne hn]

theorem mergeOpt_some (vs : List Version) :
    ∀ m, mergeOpt (some m) vs = some (vs.foldl max m) := by
  induction vs with
  | nil => intro m; rfl
  | cons v vs ih => intro m; simp [mergeOpt, List.foldl_cons, ih]

theorem mergeOpt_none_eq_listMax (vs : List Version) :
    mergeOpt none vs = listMax vs := by
  cases vs with
  | nil => rfl
  | cons v vs => simp [mergeOpt, listMax, mergeOpt_some]

theorem foldl_add_latest (uvs : List UnitVersion) :
    ∀ (r : Resolver), LatestWF r → ∀ n,
      SMap.find? (List.foldl Resolver.addUnitVersion r uvs).latestVersion n =
        mergeOpt (SMap.find? r.latestVersion n)
          ((uvs.filter (fun u => decide (u.name = n))).map UnitVersion.version) := by
  induction uvs with
  | nil => intro r hwf n; rfl
  | cons uv uvs ih =>
    intro r hwf n
    rw [List.foldl_cons, ih _ (add_LatestWF hwf) n, add_latest_step hwf n]
    by_cases hn : uv.name = n
    · rw [if_pos hn]
      simp [List.filter_cons, hn, mergeOpt]
    · rw [if_neg hn]
      simp [List.filter_cons, hn]

theorem removeFirstEq_append {l rest : List Char} (h : '=' ∉ l) :
    removeFirstEq (l ++ '=' :: rest) = l ++ rest := by
  induction l with
  | nil => simp [removeFirstEq]
  | cons c cs ih =>
    have hc : c ≠ '=' := fun hq => h (hq ▸ List.mem_cons_self _ _)
    simp only [List.cons_append, removeFirstEq, if_neg hc, List.append_eq]
    rw [ih (fun hmem => h (List.mem_cons_of_mem _ hmem))]

theorem jsReplaceFirstEq_exact_key {c : Constraint} (hx : c.exact = true)
    (hname : '=' ∉ c.name.data) :
    jsReplaceFirstEq (Constraint.toString c) =
      c.name ++ "@" ++ Nat.repr c.version := by
  have h1 : Constraint.toString c = c.name ++ "@" ++ "=" ++ Nat.repr c.version := by
    unfold Constraint.toString
    rw [hx]
    rfl
  rw [h1]
  apply String.ext
  show removeFirstEq (c.name ++ "@" ++ "=" ++ Nat.repr c.version).data =
    (c.name ++ "@" ++ Nat.repr c.version).data
  rw [String.data_append, String.data_append, String.data_append, String.data_append,
    show (("@" : String)).data = ['@'] from rfl,
    show (("=" : String)).data = ['='] from rfl,
    List.append_assoc (c.name.data ++ ['@']), List.singleton_append]
  exact removeFirstEq_append (by
    intro hmem
    rcases List.mem_append.mp hmem with hmem | hmem
    · exact hname hmem
    · simp at hmem)

/- Claim theorems. -/

/-- C4: for every Constraint `c` and UnitVersion `uv`, if `c.exact` then
`isSatisfied` holds iff `uv.version = c.version` (regardless of
`uv.ecv`); otherwise it holds iff `c.version ≤ uv.version` and
`uv.ecv ≤ c.version` under the version order. -/
theorem isSatisfied_spec :
    ∀ (c : Constraint) (uv : UnitVersion),
      (Constraint.isSatisfied c uv = true ↔
        (if c.exact = true then uv.version = c.version
         else (c.version ≤ uv.version ∧ uv.ecv ≤ c.version))) ∧
      (∀ e : Version, c.exact = true →
        Constraint.isSatisfied c ⟨uv.name, uv.version, e, uv.dependencies, uv.constraints⟩
          = Constraint.isSatisfied c uv) := by
  intro c uv
  constructor
  · cases hx : c.exact
    · simp [Constraint.isSatisfied, hx]
    · simp [Constraint.isSatisfied, hx, eq_comm]
  · intro e hx
    simp [Constraint.isSatisfied, hx]

/-- C4 witness: the exact constraint `A@=1` ignores the candidate's ecv. -/
theorem isSatisfied_spec_witness :
    cA1x.exact = true ∧
    Constraint.isSatisfied cA1x ⟨uvA1.name, uvA1.version, 7, uvA1.dependencies, uvA1.constraints⟩
      = Constraint.isSatisfied cA1x uvA1 :=
  ⟨rfl, (isSatisfied_spec cA1x uvA1).2 7 rfl⟩

/-- C10: `resolve` treats null/omitted `constraints` and `choices`
arguments exactly as empty arrays. -/
theorem resolve_null_args_default :
    ∀ (r : Resolver) (fuel : Nat) (deps : List String) (o : ResolveOptions),
      Resolver.resolve r fuel deps none none o =
        Resolver.resolve r fuel deps (some []) (some []) o :=
  fun _ _ _ _ => rfl

/-- C8: when the peeked dependency name has no registered unit versions
at all, `_stateNeighbors` returns the same non-fatal dead-end value
(`success = false` with the "Cannot choose satisfying versions" message)
as when every registered candidate is filtered out by the constraints. -/
theorem stateNeighbors_unregistered_dead_end :
    (∀ (r : Resolver) (fuel : Nat) (st : RState),
      SMap.find? r.unitsVersions (DependenciesList.peek st.dependencies) = none →
      stateNeighbors r fuel st = Except.ok
        ⟨false, "Cannot choose satisfying versions of package -- " ++
          DependenciesList.peek st.dependencies, []⟩) ∧
    (∀ (r : Resolver) (fuel : Nat) (st : RState),
      (∀ uv ∈ (SMap.find? r.unitsVersions (DependenciesList.peek st.dependencies)).getD [],
        ConstraintsList.violated st.constraints uv = true) →
      stateNeighbors r fuel st = Except.ok
        ⟨false, "Cannot choose satisfying versions of package -- " ++
          DependenciesList.peek st.dependencies, []⟩) := by
  constructor
  · intro r fuel st h
    unfold stateNeighbors
    dsimp only
    rw [h]
    rfl
  · intro r fuel st h
    have hfil : (((SMap.find? r.unitsVersions (DependenciesList.peek st.dependencies)).getD []).filter
        (fun uv => !(ConstraintsList.violated st.constraints uv))) = [] := by
      apply List.filter_eq_nil_iff.mpr
      intro uv hmem
      simp [h uv hmem]
    unfold stateNeighbors
    dsimp only
    rw [hfil]
    rfl

/-- C8 witness: the name `Z` is entirely unregistered in `rA1`, and
peeking it produces the non-fatal dead-end value. -/
theorem stateNeighbors_unregistered_dead_end_witness :
    SMap.find? rA1.unitsVersions (DependenciesList.peek ((⟨["Z"], [], []⟩ : RState)).dependencies) = none ∧
    stateNeighbors rA1 5 ⟨["Z"], [], []⟩ = Except.ok
      ⟨false, "Cannot choose satisfying versions of package -- " ++
        DependenciesList.peek ((⟨["Z"], [], []⟩ : RState)).dependencies, []⟩ :=
  ⟨rfl, stateNeighbors_unregistered_dead_end.1 rA1 5 ⟨["Z"], [], []⟩ rfl⟩

/-- C7: `addUnitVersion` is idempotent (a second registration of the
same unit version leaves the whole registry unchanged); a first
insertion appends the unit version to `unitsVersions[name]` and interns
it; and after any sequence of registrations starting from the empty
resolver, `latestVersion[name]` is exactly the maximum version added
for that name (absent when none was). -/
theorem addUnitVersion_spec :
    (∀ (r : Resolver) (uv : UnitVersion),
      Resolver.addUnitVersion (Resolver.addUnitVersion r uv) uv =
        Resolver.addUnitVersion r uv) ∧
    (∀ (r : Resolver) (uv : UnitVersion),
      SMap.has r.unitsVersionsMap (UnitVersion.str uv) = false →
      SMap.find? (Resolver.addUnitVersion r uv).unitsVersions uv.name =
        some (((SMap.find? r.unitsVersions uv.name).getD []) ++ [uv]) ∧
      SMap.find? (Resolver.addUnitVersion r uv).unitsVersionsMap (UnitVersion.str uv) =
        some uv) ∧
    (∀ (uvs : List UnitVersion) (n : String),
      SMap.find? (List.foldl Resolver.addUnitVersion emptyResolver uvs).latestVersion n =
        listMax ((uvs.filter (fun u => decide (u.name = n))).map UnitVersion.version)) :=
  ⟨fun _ _ => add_add_same rfl rfl,
   fun _ _ h => add_first_insert h,
   fun uvs n => by
     rw [foldl_add_latest uvs emptyResolver emptyResolver_LatestWF n]
     exact mergeOpt_none_eq_listMax _⟩

/-- C7 witness: registering `A@1` into the empty resolver appends it,
and after registering `A@1` then `A@2` the latest version of `A` is 2. -/
theorem addUnitVersion_spec_witness :
    SMap.has emptyResolver.unitsVersionsMap (UnitVersion.str uvA1) = false ∧
    SMap.find? (Resolver.addUnitVersion emptyResolver uvA1).unitsVersions uvA1.name =
      some (((SMap.find? emptyResolver.unitsVersions uvA1.name).getD []) ++ [uvA1]) ∧
    SMap.find? (List.foldl Resolver.addUnitVersion emptyResolver [uvA1, uvA2]).latestVersion "A" =
      listMax (([uvA1, uvA2].filter (fun u => decide (u.name = "A"))).map UnitVersion.version) :=
  ⟨rfl, (addUnitVersion_spec.2.1 emptyResolver uvA1 rfl).1,
   addUnitVersion_spec.2.2 [uvA1, uvA2] "A"⟩

/-- C9: registering a second, distinct UnitVersion object with the same
name and version as a freshly registered one changes nothing: the whole
registry (candidate list, interning map, latest version and constraint
table alike) stays as after the first registration, which keeps the
first-registered object. -/
theorem addUnitVersion_first_write_wins :
    ∀ (r : Resolver) (uv uvB : UnitVersion),
      SMap.has r.unitsVersionsMap (UnitVersion.str uv) = false →
      uvB.name = uv.name → uvB.version = uv.version →
      Resolver.addUnitVersion (Resolver.addUnitVersion r uv) uvB =
        Resolver.addUnitVersion r uv ∧
      SMap.find? (Resolver.addUnitVersion r uv).unitsVersionsMap (UnitVersion.str uv) =
        some uv ∧
      SMap.find? (Resolver.addUnitVersion r uv).unitsVersions uv.name =
        some (((SMap.find? r.unitsVersions uv.name).getD []) ++ [uv]) := by
  intro r uv uvB h hn hv
  exact ⟨add_add_same hn hv, (add_first_insert h).2, (add_first_insert h).1⟩

/-- C9 witness: `uvA1b` differs from `uvA1` only in its ecv; adding it
after `uvA1` leaves the registry untouched. -/
theorem addUnitVersion_first_write_wins_witness :
    SMap.has emptyResolver.unitsVersionsMap (UnitVersion.str uvA1) = false ∧
    uvA1b.name = uvA1.name ∧ uvA1b.version = uvA1.version ∧ uvA1b ≠ uvA1 ∧
    Resolver.addUnitVersion (Resolver.addUnitVersion emptyResolver uvA1) uvA1b =
      Resolver.addUnitVersion emptyResolver uvA1 :=
  ⟨rfl, rfl, rfl, by decide,
   (addUnitVersion_first_write_wins emptyResolver uvA1 uvA1b rfl rfl rfl).1⟩

/-- C6 counterexample: for the exact constraint on the package name
`p=q` (which contains an `=`), `getSatisfyingUnitVersion` does NOT
return the UnitVersion interned under the key `"name@version"`: the
JavaScript `toString().replace("=", "")` deletes only the FIRST `=`,
which here sits inside the name, so the lookup key is `"pq@=1"` and the
lookup misses although `"p=q@1"` is interned. -/
theorem getSatisfyingUnitVersion_eq_in_name_counterexample :
    cPeqx.exact = true ∧
    Constraint.getSatisfyingUnitVersion cPeqx rPeq = none ∧
    SMap.find? rPeq.unitsVersionsMap (cPeqx.name ++ "@" ++ Nat.repr cPeqx.version) =
      some uvPeq :=
  ⟨rfl, rfl, rfl⟩

/-- C6 (amended): an exact constraint looks up the interning map under
the key obtained from `toString()` by deleting the first `=`; whenever
the constraint's name contains no `=` this key is exactly
`"name@version"`.  An inexact constraint returns the first UnitVersion
of `unitsVersions[name]` in registration order that satisfies it, and
none if no registered candidate does. -/
theorem getSatisfyingUnitVersion_spec :
    ∀ (c : Constraint) (r : Resolver),
      (c.exact = true →
        Constraint.getSatisfyingUnitVersion c r =
          SMap.find? r.unitsVersionsMap (jsReplaceFirstEq (Constraint.toString c)) ∧
        ('=' ∉ c.name.data →
          Constraint.getSatisfyingUnitVersion c r =
            SMap.find? r.unitsVersionsMap (c.name ++ "@" ++ Nat.repr c.version))) ∧
      (c.exact = false →
        (∀ uv, Constraint.getSatisfyingUnitVersion c r = some uv →
          Constraint.isSatisfied c uv = true ∧
          ∃ pre post,
            (SMap.find? r.unitsVersions c.name).getD [] = pre ++ uv :: post ∧
            ∀ x ∈ pre, Constraint.isSatisfied c x = false) ∧
        (Constraint.getSatisfyingUnitVersion c r = none →
          ∀ uv ∈ (SMap.find? r.unitsVersions c.name).getD [],
            Constraint.isSatisfied c uv = false)) := by
  intro c r
  constructor
  · intro hx
    constructor
    · unfold Constraint.getSatisfyingUnitVersion
      rw [if_pos hx]
    · intro hname
      unfold Constraint.getSatisfyingUnitVersion
      rw [if_pos hx, jsReplaceFirstEq_exact_key hx hname]
  · intro hx
    have hgu : Constraint.getSatisfyingUnitVersion c r =
        ((SMap.find? r.unitsVersions c.name).getD []).find?
          (fun uv => Constraint.isSatisfied c uv) := by
      unfold Constraint.getSatisfyingUnitVersion
      rw [if_neg (by simp [hx])]
    constructor
    · intro uv hsome
      rw [hgu] at hsome
      exact list_find?_some_split hsome
    · intro hnone uv hmem
      rw [hgu] at hnone
      simpa using List.find?_eq_none.mp hnone uv hmem

/-- C6 witness: for the ordinary exact constraint `A@=1` (no `=` in the
name) the lookup key is exactly `"A@1"`. -/
theorem getSatisfyingUnitVersion_spec_witness :
    cA1x.exact = true ∧ ('=' ∉ cA1x.name.data) ∧
    Constraint.getSatisfyingUnitVersion cA1x rA1 =
      SMap.find? rA1.unitsVersionsMap (cA1x.name ++ "@" ++ Nat.repr cA1x.version) :=
  ⟨rfl, by decide, ((getSatisfyingUnitVersion_spec cA1x rA1).1 rfl).2 (by decide)⟩

/-- C5: when, during exact-constraint propagation, the newly derived
exact constraints contain one with no satisfying registered
UnitVersion, the propagation loop raises exactly
"No unit version was found for the constraint -- c" (first part); such
an error from the start-state propagation is resolve's own result
(second part), and such an error during neighbor expansion aborts the
search loop rather than being recorded as a droppable dead end (third
part). -/
theorem propagation_noUV_fatal :
    (∀ (r : Resolver) (fuel : Nat) (uv : UnitVersion) (st : RState)
        (etdv : List UnitVersion) (inexact : DependenciesList) (c : Constraint)
        (q : List UnitVersion) (enq : List String),
      exactTransitiveDependenciesVersions r fuel uv = Except.ok etdv →
      inexactTransitiveDependencies r fuel uv = Except.ok inexact →
      firstFailing r (newExactOf uv (ConstraintsList.union st.constraints
          (transConstraintsOf uv etdv))) = some c →
      propagateLoop r (fuel + 1) (uv :: q) enq st =
        Except.error ("No unit version was found for the constraint -- " ++
          Constraint.toString c)) ∧
    (∀ (r : Resolver) (fuel : Nat) (deps : List String)
        (cons : Option (List Constraint)) (chs : Option (List UnitVersion))
        (o : ResolveOptions) (e : String),
      startStateOf r fuel deps (cons.getD []) (chs.getD []) = Except.error e →
      Resolver.resolve r fuel deps cons chs o = Except.error e) ∧
    (∀ (r : Resolver) (o : ResolveOptions) (fuel : Nat) (pq : List PQEntry)
        (err : Option String) (k : Cost × Int) (st : RState) (rest : List PQEntry)
        (e : String),
      popMin pq = some ((k, st), rest) →
      Cost.add (o.costFunction st.choices) (o.estimateCostFunction st) ≠ Cost.inf →
      DependenciesList.isEmpty st.dependencies = false →
      stateNeighbors r fuel st = Except.error e →
      searchLoop r o (fuel + 1) pq err = Except.error e) := by
  refine ⟨?_, ?_, ?_⟩
  · intro r fuel uv st etdv inexact c q enq h1 h2 h3
    exact propagateLoop_error_head (propagateStep_error_noUV h1 h2 h3)
  · intro r fuel deps cons chs o e h
    unfold Resolver.resolve
    rw [h]
  · intro r o fuel pq err k st rest e hpop hinf hterm hnb
    simp only [searchLoop, hpop]
    rw [if_neg hinf, if_neg (by simp [hterm]), hnb]

/-- C5 witness: `A@1` depends on `B`; with the exact constraint
`B@=123` in force and no `B` registered, the propagation of choosing
`A@1` raises the fatal message. -/
theorem propagation_noUV_fatal_witness :
    exactTransitiveDependenciesVersions rAB 8 uvAdepB = Except.ok [] ∧
    inexactTransitiveDependencies rAB 8 uvAdepB = Except.ok ["B"] ∧
    firstFailing rAB (newExactOf uvAdepB (ConstraintsList.union
      ((⟨[], [cB123x], [uvAdepB]⟩ : RState)).constraints
      (transConstraintsOf uvAdepB []))) = some cB123x ∧
    propagateLoop rAB 9 [uvAdepB] ["A"] ⟨[], [cB123x], [uvAdepB]⟩ =
      Except.error ("No unit version was found for the constraint -- " ++
        Constraint.toString cB123x) :=
  ⟨rfl, rfl, rfl,
   propagation_noUV_fatal.1 rAB 8 uvAdepB ⟨[], [cB123x], [uvAdepB]⟩ [] ["B"] cB123x
     [] ["A"] rfl rfl rfl⟩

/-- C2 counterexample: with `A@1` and `A@2` registered and the two
conflicting exact constraints `A@=1` and `A@=2` given, the propagated
start state's choices contain two entries both named `A`. -/
theorem startState_duplicate_name_counterexample :
    (startStateOf rA12 10 ["A"] [cA1x, cA2x] []).map
        (fun st => st.choices.map UnitVersion.name) =
      Except.ok ["A", "A"] := rfl

/-- C2 (amended): the choices of every state produced by
`_propagateExactTransDeps` — hence of the propagated start state and of
every neighbor state — contain no duplicate ENTRIES; but two distinct
entries may share a package name (conflicting exact constraints or
caller-supplied duplicate initial choices), so per-name uniqueness does
not hold in general. -/
theorem search_state_choices_nodup :
    (∀ (r : Resolver) (fuel : Nat) (uv : UnitVersion) (dl : DependenciesList)
        (cl : ConstraintsList) (chs : List UnitVersion) (out : RState),
      propagateExactTransDeps r fuel uv dl cl chs = Except.ok out →
      out.choices.Nodup) ∧
    (∀ (r : Resolver) (fuel : Nat) (deps : List String) (cons : List Constraint)
        (chs : List UnitVersion) (st : RState),
      startStateOf r fuel deps cons chs = Except.ok st → st.choices.Nodup) ∧
    (∀ (r : Resolver) (fuel : Nat) (st : RState) (nb : NeighborsResult),
      stateNeighbors r fuel st = Except.ok nb →
      ∀ s ∈ nb.neighbors, s.choices.Nodup) := by
  refine ⟨?_, ?_, ?_⟩
  · intro r fuel uv dl cl chs out h
    exact propagateExactTransDeps_ok_nodup h
  · intro r fuel deps cons chs st h
    unfold startStateOf at h
    dsimp only at h
    split at h
    · exact absurd h (by simp)
    · next st0 heq =>
      rw [Except.ok.injEq] at h
      rw [← h]
      exact (propagateExactTransDeps_ok_nodup heq).filter _
  · intro r fuel st nb h s hs
    rcases stateNeighbors_ok_from_propagate h s hs with ⟨uv, hprop⟩
    exact propagateExactTransDeps_ok_nodup hprop

/-- C2 witness: the start state of the plain exact-pin scenario has
duplicate-free choices. -/
theorem search_state_choices_nodup_witness :
    startStateOf rA1 10 ["A"] [cA1x] [] = Except.ok ⟨[], [cA1x], [uvA1]⟩ ∧
    ((⟨[], [cA1x], [uvA1]⟩ : RState)).choices.Nodup :=
  ⟨rfl, search_state_choices_nodup.2.1 rA1 10 ["A"] [cA1x] [] ⟨[], [cA1x], [uvA1]⟩ rfl⟩

/-- C1 counterexample: with `A@1` and `A@2` registered and the
conflicting exact constraints `A@=1`, `A@=2` supplied, `resolve`
returns the solution `[A@1, A@2]` — two UnitVersions of the same name,
and `A@1` violates the accumulated exact constraint `A@=2` (which is in
the start state's accumulated ConstraintsList).  The start state is
terminal and is returned without the `choicesDontViolateConstraints`
check. -/
theorem resolve_solution_counterexample :
    Resolver.resolve rA12 10 ["A"] (some [cA1x, cA2x]) (some []) defaultOptions =
      Except.ok [uvA1, uvA2] ∧
    uvA1.name = uvA2.name ∧
    Constraint.isSatisfied cA2x uvA1 = false ∧
    (startStateOf rA12 10 ["A"] [cA1x, cA2x] []).map
        (fun st => decide (cA2x ∈ st.constraints)) = Except.ok true :=
  ⟨rfl, rfl, rfl, rfl⟩

/-- C1 (amended): every solution returned by `resolve` is the choices
list of a search state tied to the run: either it is the propagated
start state's choices — returned without any violation or
per-name-uniqueness check, and possibly violating the accumulated
constraints (e.g. under conflicting exact constraints or pre-violating
initial choices) — or it is the choices of a state belonging to the
neighbors of a successful `_stateNeighbors` invocation on this
resolver, and then `choicesDontViolateConstraints` holds: no returned
choice is violated by that state's accumulated ConstraintsList. -/
theorem resolve_solution_sound :
    ∀ (r : Resolver) (fuel : Nat) (deps : List String)
      (cons : Option (List Constraint)) (chs : Option (List UnitVersion))
      (o : ResolveOptions) (st0 : RState) (sol : List UnitVersion),
      startStateOf r fuel deps (cons.getD []) (chs.getD []) = Except.ok st0 →
      Resolver.resolve r fuel deps cons chs o = Except.ok sol →
      sol = st0.choices ∨
        ∃ (fuelN : Nat) (stPrev : RState) (nb : NeighborsResult) (s : RState),
          stateNeighbors r fuelN stPrev = Except.ok nb ∧
          nb.success = true ∧
          s ∈ nb.neighbors ∧
          sol = s.choices ∧
          choicesDontViolateConstraints s.choices s.constraints = true := by
  intro r fuel deps cons chs o st0 sol hstart hres
  unfold Resolver.resolve at hres
  split at hres
  · exact absurd hres (by simp)
  · next startState heq =>
    rw [hstart] at heq
    rw [Except.ok.injEq] at heq
    subst heq
    by_cases hstop : o.stopAfterFirstPropagation = true
    · rw [if_pos hstop] at hres
      rw [Except.ok.injEq] at hres
      exact Or.inl hres.symm
    · rw [if_neg hstop] at hres
      have hsound := searchLoop_ok_sound
        (fun s => s = st0 ∨
          ∃ (fuelN : Nat) (stPrev : RState) (nb : NeighborsResult),
            stateNeighbors r fuelN stPrev = Except.ok nb ∧
            nb.success = true ∧ s ∈ nb.neighbors)
        (fun fuelN stN nbN hnb hsucc s hs => Or.inr ⟨fuelN, stN, nbN, hnb, hsucc, hs⟩)
        (fun e he => by
          simp only [initialQueue, List.mem_singleton] at he
          rw [he]
          exact Or.inl rfl) hres
      rcases hsound with ⟨s, hP, hsol⟩
      rcases hP with hP | ⟨fuelN, stPrev, nb, hnb, hsucc, hmem⟩
      · exact Or.inl (by rw [hsol, hP])
      · exact Or.inr ⟨fuelN, stPrev, nb, s, hnb, hsucc, hmem, hsol,
          stateNeighbors_ok_pred hnb s hmem⟩

/-- C1 witness: the counterexample scenario instantiates the amended
statement (its solution is the start state's choices). -/
theorem resolve_solution_sound_witness :
    startStateOf rA12 10 ["A"] ((some [cA1x, cA2x]).getD [])
      ((some ([] : List UnitVersion)).getD []) =
      Except.ok ⟨[], [cA1x, cA2x], [uvA1, uvA2]⟩ ∧
    Resolver.resolve rA12 10 ["A"] (some [cA1x, cA2x]) (some []) defaultOptions =
      Except.ok [uvA1, uvA2] ∧
    ([uvA1, uvA2] = ((⟨[], [cA1x, cA2x], [uvA1, uvA2]⟩ : RState)).choices ∨
      ∃ (fuelN : Nat) (stPrev : RState) (nb : NeighborsResult) (s : RState),
        stateNeighbors rA12 fuelN stPrev = Except.ok nb ∧
        nb.success = true ∧
        s ∈ nb.neighbors ∧
        [uvA1, uvA2] = s.choices ∧
        choicesDontViolateConstraints s.choices s.constraints = true) :=
  ⟨rfl, rfl,
   resolve_solution_sound rA12 10 ["A"] (some [cA1x, cA2x]) (some [])
     defaultOptions ⟨[], [cA1x, cA2x], [uvA1, uvA2]⟩ [uvA1, uvA2] rfl rfl⟩

/-- C3 counterexample: in the exact-pin scenario the propagated start
state has one choice, yet `resolve` pushes it with tiebreak key `0`
(line 116 of resolver.js), not `-|choices| = -1` as the claim states
for every insertion. -/
theorem start_state_key_counterexample :
    (startStateOf rA1 10 ["A"] [cA1x] []).map
        (fun st => (initialQueue defaultOptions st).map
          (fun e => (e.1.2, e.2.choices.length))) =
      Except.ok [((0 : Int), 1)] ∧
    (0 : Int) ≠ -(Int.ofNat 1) :=
  ⟨rfl, by decide⟩

/-- C3 (amended): `resolve` runs the search loop on the initial queue
holding the start state keyed by
`(combine(cost(choices), estimate(state)), 0)` — tiebreak 0, not
`-|choices|`; every neighbor state is inserted with key
`(combine(cost(choices), estimate(state)), -|choices|)`; and the queue
pops an entry whose key is lexicographically least, so smaller combined
cost is popped first and, among equal combined costs, a smaller
tiebreak — i.e. more choices for neighbor-keyed entries — wins. -/
theorem priority_queue_keys :
    (∀ (r : Resolver) (fuel : Nat) (deps : List String)
        (cons : Option (List Constraint)) (chs : Option (List UnitVersion))
        (o : ResolveOptions) (st0 : RState),
      startStateOf r fuel deps (cons.getD []) (chs.getD []) = Except.ok st0 →
      o.stopAfterFirstPropagation = false →
      Resolver.resolve r fuel deps cons chs o =
        searchLoop r o fuel (initialQueue o st0) none ∧
      initialQueue o st0 =
        [((o.combineCostFunction (o.costFunction st0.choices)
            (o.estimateCostFunction st0), 0), st0)]) ∧
    (∀ (o : ResolveOptions) (s : RState),
      pushKey o s =
        (o.combineCostFunction (o.costFunction s.choices) (o.estimateCostFunction s),
         -(Int.ofNat s.choices.length))) ∧
    (∀ (r : Resolver) (o : ResolveOptions) (fuel : Nat) (pq : List PQEntry)
        (err : Option String) (k : Cost × Int) (st : RState) (rest : List PQEntry)
        (nb : NeighborsResult),
      popMin pq = some ((k, st), rest) →
      Cost.add (o.costFunction st.choices) (o.estimateCostFunction st) ≠ Cost.inf →
      DependenciesList.isEmpty st.dependencies = false →
      stateNeighbors r fuel st = Except.ok nb →
      nb.success = true →
      searchLoop r o (fuel + 1) pq err =
        searchLoop r o fuel (rest ++ nb.neighbors.map (fun s => (pushKey o s, s))) err) ∧
    (∀ (pq : List PQEntry) (x : PQEntry) (rest : List PQEntry),
      popMin pq = some (x, rest) → ∀ y ∈ pq, keyLEb x.1 y.1 = true) := by
  refine ⟨?_, ?_, ?_, ?_⟩
  · intro r fuel deps cons chs o st0 hstart hstop
    constructor
    · unfold Resolver.resolve
      rw [hstart]
      show (if o.stopAfterFirstPropagation then Except.ok st0.choices
        else searchLoop r o fuel (initialQueue o st0) none) = _
      rw [if_neg (by simp [hstop])]
    · rfl
  · intro o s
    rfl
  · intro r o fuel pq err k st rest nb hpop hinf hterm hnb hsucc
    simp only [searchLoop, hpop]
    rw [if_neg hinf, if_neg (by simp [hterm]), hnb]
    simp only
    rw [if_pos hsucc]
  · exact fun pq x rest h y hy => popMin_min h y hy

/-- C3 witness: one concrete search step on the registry holding only
`B@1` expands the single neighbor and pushes it with `pushKey`. -/
theorem priority_queue_keys_witness :
    popMin [((Cost.fin 0, 0), (⟨["B"], [], []⟩ : RState))] =
      some ((((Cost.fin 0, 0), (⟨["B"], [], []⟩ : RState))), []) ∧
    Cost.add (defaultOptions.costFunction ((⟨["B"], [], []⟩ : RState)).choices)
      (defaultOptions.estimateCostFunction ⟨["B"], [], []⟩) ≠ Cost.inf ∧
    DependenciesList.isEmpty ((⟨["B"], [], []⟩ : RState)).dependencies = false ∧
    stateNeighbors rB1 5 ⟨["B"], [], []⟩ =
      Except.ok ⟨true, "", [⟨[], [], [uvB1]⟩]⟩ ∧
    searchLoop rB1 defaultOptions 6 [((Cost.fin 0, 0), (⟨["B"], [], []⟩ : RState))] none =
      searchLoop rB1 defaultOptions 5
        ([] ++ (([⟨[], [], [uvB1]⟩] : List RState).map
          (fun s => (pushKey defaultOptions s, s)))) none :=
  ⟨rfl, by decide, rfl, rfl,
   priority_queue_keys.2.2.1 rB1 defaultOptions 5
     [((Cost.fin 0, 0), (⟨["B"], [], []⟩ : RState))] none (Cost.fin 0, 0)
     ⟨["B"], [], []⟩ [] ⟨true, "", [⟨[], [], [uvB1]⟩]⟩ rfl (by decide) rfl rfl rfl⟩
